import Mathlib

set_option maxHeartbeats 1000000

namespace GradPath

/-! Shallow embedding of the requirement-evaluation and plan-certification core of
`div0rce/gradpath` (backend/app). Each definition mirrors one Python function or
data shape; the file ends with one theorem per frozen claim. -/

/-- Season enum, from `app/enums.py` class TermSeason. -/
inductive TermSeason
  | FALL | WINTER | SPRING | SUMMER
deriving DecidableEq, Repr

/-- Completion-status enum, from `app/enums.py` class CompletionStatus. -/
inductive CompletionStatus
  | YES | IN_PROGRESS | NO | BLANK
deriving DecidableEq, Repr

/-- Plan-item validity enum, from `app/enums.py` class PlanItemStatus. -/
inductive PlanItemStatus
  | DRAFT | VALID | INVALID
deriving DecidableEq, Repr

/-- Certification-state enum, from `app/enums.py` class CertificationState. -/
inductive CertificationState
  | DRAFT | READY | CERTIFIED
deriving DecidableEq, Repr

/-- Audit-requirement status enum, from `app/enums.py` class AuditRequirementStatus. -/
inductive AuditRequirementStatus
  | SATISFIED | PENDING | MISSING | UNKNOWN
deriving DecidableEq, Repr

/-! Canonicalizer, from `app/services/canonicalization.py`.
The regex is `\b\d{2}:\d{3}:\d{3}\b`, searched anywhere in the raw text.
Digits and word characters are modelled at ASCII granularity. -/

/-- True when the ten characters form the shape dd:ddd:ddd of the course-code
regex body. -/
def codeShape : List Char → Bool
  | [a, b, c, d, e, f, g, h, i, j] =>
      a.isDigit && b.isDigit && c = ':' && d.isDigit && e.isDigit && f.isDigit &&
        g = ':' && h.isDigit && i.isDigit && j.isDigit
  | _ => false

/-- Word character for the regex word-boundary assertion. -/
def isWordChar (c : Char) : Bool := c.isAlphanum || c = '_'

/-- An entire string matching the anchored pattern of the two schemas,
regex `^\d{2}:\d{3}:\d{3}$` from `ast_schema.py` and `degree_dsl_schema.py`. -/
def isCanonicalCode (s : String) : Bool := codeShape s.toList

/-- Boundary check on the left of a candidate match: start of string or a
non-word character. -/
def boundaryBefore : Option Char → Bool
  | none => true
  | some c => !isWordChar c

/-- Boundary check on the right of a candidate match: end of string or a
non-word character. -/
def boundaryAfter : List Char → Bool
  | [] => true
  | c :: _ => !isWordChar c

/-- Whether a match of the bounded course-code pattern starts at the head of
`cs`, with `prev` the character just before it. -/
def matchesHere (prev : Option Char) (cs : List Char) : Bool :=
  codeShape (cs.take 10) && boundaryBefore prev && boundaryAfter (cs.drop 10)

/-- Leftmost-match scan of `re.search`. -/
def scanForCode : Option Char → List Char → Option String
  | _, [] => none
  | prev, c :: rest =>
      if matchesHere prev (c :: rest) then some (String.mk ((c :: rest).take 10))
      else scanForCode (some c) rest

/-- Embeds `extract_canonical_course_code` from `canonicalization.py`: first
substring matching the bounded course-code pattern, or none. -/
def extractCanonicalCourseCode (raw : String) : Option String :=
  if raw = "" then none else scanForCode none raw.toList

/-! Explanation constants and ordering, from `app/services/degree_dsl_engine.py`
lines 10-31. -/

def EXPLANATION_SATISFIED : String := "REQUIREMENT_SATISFIED"
def EXPLANATION_INCOMPLETE : String := "REQUIREMENT_INCOMPLETE"
def EXPLANATION_REQUIRED_MISSING : String := "REQUIRED_COURSE_MISSING"
def EXPLANATION_UNSUPPORTED_LEGACY : String := "UNSUPPORTED_LEGACY_RULE"

/-- The EXPLANATION_PRIORITY table with the dict-get default 99. -/
def explanationPriority (code : String) : Nat :=
  if code = EXPLANATION_UNSUPPORTED_LEGACY then 1
  else if code = EXPLANATION_REQUIRED_MISSING then 2
  else if code = EXPLANATION_INCOMPLETE then 3
  else if code = EXPLANATION_SATISFIED then 4
  else 99

/-- Sort key of `order_explanations`: the pair (priority, code) compared
lexicographically. -/
def explKey (code : String) : Lex (Nat × String) := toLex (explanationPriority code, code)

/-- The sorting relation used by `order_explanations`. -/
def explLe (a b : String) : Prop := explKey a ≤ explKey b

instance : DecidableRel explLe := fun a b =>
  inferInstanceAs (Decidable (explKey a ≤ explKey b))

instance : IsTrans String explLe := ⟨fun _ _ _ h1 h2 => le_trans h1 h2⟩

instance : IsAntisymm String explLe := ⟨fun a b h1 h2 => by
  have h := le_antisymm h1 h2
  have h2 := congrArg (fun p : Lex (Nat × String) => (ofLex p).2) h
  simpa [explKey] using h2⟩

instance : IsTotal String explLe := ⟨fun a b => le_total (explKey a) (explKey b)⟩

/-- Embeds `order_explanations`: a Python set of codes listed in ascending
(priority, code) order. -/
def orderExplanations (codes : Finset String) : List String := codes.sort explLe

/-- Embeds Python `sorted(set)` on course-code collections. -/
def sortedCodes (codes : Finset String) : List String := codes.sort (· ≤ ·)

/-! Rule trees. Requirement and prerequisite rules are JSON dicts; the code
branches on exactly these shapes, so the embedding is the tagged variant over
them. Legacy single-key shapes: course / any / all / countAtLeast. Current
dialect, marked by a "type" key: COURSE_SET / ALL_OF / N_OF / COUNT_MIN, plus
any other dict carrying a "type" key (`otherTyped`). Every remaining payload
(non-dicts, empty or multi-key dicts, wrongly typed fields) is `junk`: the code
treats all of those identically (no convert branch fires, schema validation
rejects them, evaluators fall through to unsupported). -/
inductive Rule
  | course (code : String)
  | anyR (children : List Rule)
  | allR (children : List Rule)
  | countAtLeast (count : Int) (of : List Rule)
  | courseSet (courses : List String)
  | allOf (children : List Rule)
  | nOf (n : Int) (children : List Rule)
  | countMin (minCount : Int) (children : List Rule)
  | otherTyped
  | junk
deriving Repr

/-- Embeds dataclass DegreeRuleEvalResult from `degree_dsl_engine.py`. -/
structure DegreeRuleEvalResult where
  supported : Bool
  satisfied : Bool
  missing_courses : List String
  explanation_codes : List String
deriving DecidableEq, Repr

/-- Embeds the `_finalize` helper of `degree_dsl_engine.py` (lines 34-65). -/
def finalizeResult (supported satisfied : Bool) (missing : Finset String)
    (explanations : Finset String) : DegreeRuleEvalResult :=
  if supported = false then
    ⟨false, false, [], [EXPLANATION_UNSUPPORTED_LEGACY]⟩
  else if satisfied then
    ⟨true, true, [], [EXPLANATION_SATISFIED]⟩
  else
    ⟨true, false, sortedCodes missing,
      orderExplanations ((insert EXPLANATION_INCOMPLETE explanations).erase EXPLANATION_SATISFIED)⟩

/-- The canonical unsupported result, `_finalize(supported=False, ...)`. -/
def unsupportedResult : DegreeRuleEvalResult :=
  ⟨false, false, [], [EXPLANATION_UNSUPPORTED_LEGACY]⟩

/-- Child scan shared by the ALL_OF branch of `_eval_v2` and by
`_eval_min_required_children`: walks the children in stored order, stopping at
the first unsupported child (`none`, the poisoning early return), otherwise
counting satisfied children and collecting the failed children's results in
stored order. -/
def scanOutcome := Option (Nat × List DegreeRuleEvalResult)

/-- Tail of `_eval_min_required_children` (lines 92-115): cardinality decision
and witness selection from the scanned children. -/
def minRequiredFrom (minRequired : Int) : scanOutcome → DegreeRuleEvalResult
  | none => finalizeResult false false ∅ ∅
  | some (satisfiedCount, failed) =>
      if (satisfiedCount : Int) ≥ minRequired then
        finalizeResult true true ∅ {EXPLANATION_SATISFIED}
      else
        let shortfall := minRequired - (satisfiedCount : Int)
        let witnesses := failed.take shortfall.toNat
        let missingCodes := witnesses.foldl (fun s r => s ∪ r.missing_courses.toFinset) ∅
        let childExplanations := witnesses.foldl (fun s r => s ∪ r.explanation_codes.toFinset) ∅
        finalizeResult true false missingCodes
          ((insert EXPLANATION_INCOMPLETE childExplanations).erase EXPLANATION_SATISFIED)

mutual

/-- Embeds `_eval_v2` from `degree_dsl_engine.py` (lines 252-332). Evidence is
the normalized Python set of codes. -/
def evalV2 (evidence : Finset String) : Rule → DegreeRuleEvalResult
  | .courseSet courses =>
      match sortedCodes courses.toFinset with
      | [requiredCode] =>
          if requiredCode ∈ evidence then
            finalizeResult true true ∅ {EXPLANATION_SATISFIED}
          else
            finalizeResult true false {requiredCode}
              {EXPLANATION_REQUIRED_MISSING, EXPLANATION_INCOMPLETE}
      | _ => finalizeResult false false ∅ ∅
  | .allOf children =>
      match scanChildren evidence children with
      | none => finalizeResult false false ∅ ∅
      | some (_, failed) =>
          if failed.isEmpty then
            finalizeResult true true ∅ {EXPLANATION_SATISFIED}
          else
            let missingCodes := failed.foldl (fun s r => s ∪ r.missing_courses.toFinset) ∅
            let childExplanations := failed.foldl (fun s r => s ∪ r.explanation_codes.toFinset) ∅
            finalizeResult true false missingCodes
              ((insert EXPLANATION_INCOMPLETE childExplanations).erase EXPLANATION_SATISFIED)
  | .nOf n children => minRequiredFrom n (scanChildren evidence children)
  | .countMin minCount children => minRequiredFrom minCount (scanChildren evidence children)
  | _ => finalizeResult false false ∅ ∅

/-- The child loop of `_eval_min_required_children` and of the ALL_OF branch. -/
def scanChildren (evidence : Finset String) : List Rule → scanOutcome
  | [] => some (0, [])
  | c :: rest =>
      let r := evalV2 evidence c
      if r.supported = false then none
      else
        match scanChildren evidence rest with
        | none => none
        | some (n, failed) =>
            if r.satisfied then some (n + 1, failed) else some (n, r :: failed)

end

/-- Embeds `_eval_min_required_children` from `degree_dsl_engine.py`
(lines 68-115), the shared N_OF / COUNT_MIN cardinality mechanics. -/
def evalMinRequiredChildren (evidence : Finset String) (minRequired : Int)
    (children : List Rule) : DegreeRuleEvalResult :=
  minRequiredFrom minRequired (scanChildren evidence children)

/-- Embeds DEGREE_DSL_SCHEMA_V2 from `degree_dsl_schema.py` as the predicate
`validate_degree_dsl_rule_v2` decides. The oneOf lists exactly three node
shapes: COURSE_SET (a singleton list of pattern-valid codes), ALL_OF and N_OF
(n an integer at least 1) with non-empty recursively valid children. Every
other payload, COUNT_MIN included, fails validation. -/
def schemaOkV2 : Rule → Bool
  | .courseSet courses =>
      courses.length = 1 && courses.all isCanonicalCode
  | .allOf children =>
      !children.isEmpty && children.attach.all (fun c => schemaOkV2 c.1)
  | .nOf n children =>
      n ≥ 1 && !children.isEmpty && children.attach.all (fun c => schemaOkV2 c.1)
  | _ => false
termination_by r => sizeOf r
decreasing_by
  all_goals simp_wf
  all_goals have h := List.sizeOf_lt_of_mem c.2
  all_goals omega

/-- Embeds `_validate_degree_dsl_semantics_v2` from `degree_dsl_engine.py`
(lines 161-210) as the predicate deciding that no ValueError is raised. -/
def semanticsOkV2 : Rule → Bool
  | .courseSet courses => courses.length = 1
  | .allOf children =>
      !children.isEmpty && children.attach.all (fun c => semanticsOkV2 c.1)
  | .nOf n children =>
      n ≥ 1 && !children.isEmpty && n ≤ (children.length : Int) &&
        children.attach.all (fun c => semanticsOkV2 c.1)
  | .countMin minCount children =>
      minCount ≥ 1 && !children.isEmpty && minCount ≤ (children.length : Int) &&
        children.attach.all (fun c => semanticsOkV2 c.1)
  | _ => false
termination_by r => sizeOf r
decreasing_by
  all_goals simp_wf
  all_goals have h := List.sizeOf_lt_of_mem c.2
  all_goals omega

mutual

/-- Embeds `convert_legacy_rule_to_degree_dsl_v2` from `degree_dsl_engine.py`
(lines 122-154). A dict with a "type" key is returned unchanged; single-key
course / any / all shapes convert recursively; everything else returns None. -/
def convertLegacyRuleToDegreeDslV2 : Rule → Option Rule
  | .course code => some (.courseSet [code])
  | .anyR children =>
      if children.isEmpty then none
      else
        match convertChildren children with
        | none => none
        | some converted => some (.nOf 1 converted)
  | .allR children =>
      if children.isEmpty then none
      else
        match convertChildren children with
        | none => none
        | some converted => some (.allOf converted)
  | .countAtLeast _ _ => none
  | .courseSet courses => some (.courseSet courses)
  | .allOf children => some (.allOf children)
  | .nOf n children => some (.nOf n children)
  | .countMin minCount children => some (.countMin minCount children)
  | .otherTyped => some .otherTyped
  | .junk => none

/-- Child loop of the any / all conversion branches: all children must convert,
a single failure aborts the whole conversion. -/
def convertChildren : List Rule → Option (List Rule)
  | [] => some []
  | c :: rest =>
      match convertLegacyRuleToDegreeDslV2 c with
      | none => none
      | some converted =>
          match convertChildren rest with
          | none => none
          | some others => some (converted :: others)

end

/-- Embeds `evaluate_degree_requirement_rule` from `degree_dsl_engine.py`
(lines 224-249) on an already-normalized evidence set: convert, then shape and
semantic validation (failure yields the unsupported result), then `_eval_v2`. -/
def evaluateDegreeRequirementRuleOn (rule : Rule) (evidence : Finset String) :
    DegreeRuleEvalResult :=
  match convertLegacyRuleToDegreeDslV2 rule with
  | none => finalizeResult false false ∅ ∅
  | some converted =>
      if schemaOkV2 converted && semanticsOkV2 converted then
        evalV2 evidence converted
      else
        finalizeResult false false ∅ ∅

/-- The same entry point applied to an evidence collection given in its
construction order; the first statement of the Python function builds the set
`{str(code) for code in evidence_codes}`. -/
def evaluateDegreeRequirementRule (rule : Rule) (evidence : List String) :
    DegreeRuleEvalResult :=
  evaluateDegreeRequirementRuleOn rule evidence.toFinset

/-! Legacy rule engine, from `app/services/rule_engine.py` and the JSON schema
in `app/services/ast_schema.py`. -/

/-- Embeds dataclass RuleEvalResult from `rule_engine.py`. -/
structure RuleEvalResult where
  supported : Bool
  satisfied : Bool
  missing_courses : List String
deriving DecidableEq, Repr

/-- Embeds AST_SCHEMA from `ast_schema.py` as the predicate
`validate_rule_schema` decides: single-key course (pattern-valid code), all,
any, countAtLeast (count an integer at least 1, children non-empty), with
additionalProperties false everywhere, so current-dialect nodes and every other
payload are rejected. -/
def legacySchemaOk : Rule → Bool
  | .course code => isCanonicalCode code
  | .allR children =>
      !children.isEmpty && children.attach.all (fun c => legacySchemaOk c.1)
  | .anyR children =>
      !children.isEmpty && children.attach.all (fun c => legacySchemaOk c.1)
  | .countAtLeast count of =>
      count ≥ 1 && !of.isEmpty && of.attach.all (fun c => legacySchemaOk c.1)
  | _ => false
termination_by r => sizeOf r
decreasing_by
  all_goals simp_wf
  all_goals have h := List.sizeOf_lt_of_mem c.2
  all_goals omega

mutual

/-- Embeds `_eval_node` from `rule_engine.py` (lines 36-84). -/
def evalNode (allowComplex : Bool) (available : Finset String) :
    Rule → RuleEvalResult
  | .course code =>
      if code ∈ available then ⟨true, true, []⟩ else ⟨true, false, [code]⟩
  | .allR children =>
      match evalNodeAllLoop allowComplex available children with
      | .error r => r
      | .ok missing =>
          if missing.isEmpty then ⟨true, true, []⟩
          else ⟨true, false, sortedCodes missing.toFinset⟩
  | .anyR children =>
      if allowComplex = false then ⟨false, false, []⟩
      else
        let results := evalNodeList allowComplex available children
        if results.any (fun r => r.supported = false) then ⟨false, false, []⟩
        else if results.any (fun r => r.satisfied) then ⟨true, true, []⟩
        else ⟨true, false, sortedCodes (results.flatMap (fun r => r.missing_courses)).toFinset⟩
  | .countAtLeast count of =>
      if allowComplex = false then ⟨false, false, []⟩
      else
        let results := evalNodeList allowComplex available of
        if results.any (fun r => r.supported = false) then ⟨false, false, []⟩
        else if (results.countP (fun r => r.satisfied) : Int) ≥ count then ⟨true, true, []⟩
        else ⟨true, false, sortedCodes (results.flatMap (fun r => r.missing_courses)).toFinset⟩
  | _ => ⟨false, false, []⟩

/-- The `all` branch loop: walks children in order, early-returning the first
unsupported child's result, otherwise extending the missing list of the
unsatisfied children in order. -/
def evalNodeAllLoop (allowComplex : Bool) (available : Finset String) :
    List Rule → Except RuleEvalResult (List String)
  | [] => .ok []
  | c :: rest =>
      let r := evalNode allowComplex available c
      if r.supported = false then .error r
      else
        match evalNodeAllLoop allowComplex available rest with
        | .error e => .error e
        | .ok missing =>
            .ok ((if r.satisfied then [] else r.missing_courses) ++ missing)

/-- List of child results, for the any / countAtLeast branches. -/
def evalNodeList (allowComplex : Bool) (available : Finset String) :
    List Rule → List RuleEvalResult
  | [] => []
  | c :: rest => evalNode allowComplex available c :: evalNodeList allowComplex available rest

end

/-- Embeds `evaluate_rule` from `rule_engine.py` (lines 22-33): schema
validation first (failure yields the unsupported result), then `_eval_node`. -/
def evaluateRule (rule : Rule) (available : Finset String) (allowComplex : Bool) :
    RuleEvalResult :=
  if legacySchemaOk rule then evalNode allowComplex available rule
  else ⟨false, false, []⟩

/-! Plan-item validation history, from `app/services/validation.py`. -/

/-- The fields of a Term row read by `_term_sort_key` and
`_available_history_codes`. -/
structure Term where
  id : String
  season : TermSeason
  year : Int
  code : String
deriving DecidableEq, Repr

/-- The SEASON_ORDER table of `validation.py` (lines 14-19). -/
def seasonOrder : TermSeason → Nat
  | .WINTER => 1
  | .SPRING => 2
  | .SUMMER => 3
  | .FALL => 4

/-- Python tuple comparison of `_term_sort_key(t1) < _term_sort_key(t2)` with
key `(year, SEASON_ORDER[season], code)`. -/
def termSortKeyLt (t1 t2 : Term) : Bool :=
  t1.year < t2.year ||
    (t1.year = t2.year &&
      (seasonOrder t1.season < seasonOrder t2.season ||
        (seasonOrder t1.season = seasonOrder t2.season && t1.code < t2.code)))

/-- The fields of a PlanItem row read by `_available_history_codes` and
`recompute_audit` (model `app/models.py` class PlanItem). -/
structure PlanItemRow where
  termId : String
  position : Int
  rawInput : String
  canonicalCode : Option String
  courseId : Option String
  planItemStatus : PlanItemStatus
  completionStatus : CompletionStatus
deriving DecidableEq, Repr

/-- The expression `item.canonical_code or extract_canonical_course_code(item.raw_input)`
(line 71): the stored code when truthy (present and non-empty), else a code
extracted on the fly from the raw input. -/
def itemEvidenceCode (item : PlanItemRow) : Option String :=
  match item.canonicalCode with
  | some code =>
      if code = "" then extractCanonicalCourseCode item.rawInput else some code
  | none => extractCanonicalCourseCode item.rawInput

/-- The inclusion test of `_available_history_codes` (lines 57-66): the item's
term sorts strictly before the current term, or it shares the current term while
that term's season is SUMMER, its position is strictly smaller and its
completion status is YES. -/
def historyInclude (currentTerm : Term) (currentPosition : Int) (term : Term)
    (item : PlanItemRow) : Bool :=
  termSortKeyLt term currentTerm ||
    (currentTerm.season = TermSeason.SUMMER && term.id = currentTerm.id &&
      item.position < currentPosition && item.completionStatus = CompletionStatus.YES)

/-- One iteration of the `_available_history_codes` loop: resolve the item's
term (skipping when missing), test inclusion, then add the item's evidence code
when one resolves. -/
def historyStep (termById : String → Option Term) (currentTerm : Term)
    (currentPosition : Int) (acc : Finset String) (item : PlanItemRow) : Finset String :=
  match termById item.termId with
  | none => acc
  | some term =>
      if historyInclude currentTerm currentPosition term item then
        match itemEvidenceCode item with
        | some code => insert code acc
        | none => acc
      else acc

/-- Embeds `_available_history_codes` from `validation.py` (lines 36-75).
`termById` models the Term query by id. -/
def availableHistoryCodes (termById : String → Option Term) (items : List PlanItemRow)
    (currentTerm : Term) (currentPosition : Int) : Finset String :=
  items.foldl (historyStep termById currentTerm currentPosition) ∅

/-! Audit computation, from `app/services/audit.py`. -/

/-- The evidence aggregates built by `recompute_audit` (lines 40-59). -/
structure EvidenceTotals where
  completedCodes : Finset String
  pendingCodes : Finset String
  completedCredits : Int
  pendingCredits : Int
deriving DecidableEq

/-- One iteration of the item partition loop in `recompute_audit` (lines
45-59): skip items not VALID, skip falsy canonical codes, read credits through
the course row when a course id resolves (0 otherwise), then route YES into the
completed aggregates and IN_PROGRESS into the pending ones. `courseCredits`
models `db.get(Course, ...).credits`. -/
def evidenceStep (courseCredits : String → Option Int) (acc : EvidenceTotals)
    (item : PlanItemRow) : EvidenceTotals :=
  if item.planItemStatus ≠ PlanItemStatus.VALID then acc
  else
    match item.canonicalCode with
    | none => acc
    | some code =>
        if code = "" then acc
        else
          let credits :=
            match item.courseId with
            | some courseId =>
                match courseCredits courseId with
                | some credits => credits
                | none => 0
            | none => 0
          match item.completionStatus with
          | .YES =>
              { acc with
                completedCodes := insert code acc.completedCodes
                completedCredits := acc.completedCredits + credits }
          | .IN_PROGRESS =>
              { acc with
                pendingCodes := insert code acc.pendingCodes
                pendingCredits := acc.pendingCredits + credits }
          | _ => acc

/-- The full item partition loop of `recompute_audit`. -/
def collectEvidence (courseCredits : String → Option Int)
    (items : List PlanItemRow) : EvidenceTotals :=
  items.foldl (evidenceStep courseCredits) ⟨∅, ∅, 0, 0⟩

/-- Restates the loop guard of the completed branch: VALID status, truthy
canonical code, completion YES. -/
def contributesCompleted (item : PlanItemRow) : Bool :=
  decide (item.planItemStatus = PlanItemStatus.VALID) &&
    (match item.canonicalCode with
     | some code => !(code = "")
     | none => false) &&
    decide (item.completionStatus = CompletionStatus.YES)

/-- Restates the loop guard of the pending branch: VALID status, truthy
canonical code, completion IN_PROGRESS. -/
def contributesPending (item : PlanItemRow) : Bool :=
  decide (item.planItemStatus = PlanItemStatus.VALID) &&
    (match item.canonicalCode with
     | some code => !(code = "")
     | none => false) &&
    decide (item.completionStatus = CompletionStatus.IN_PROGRESS)

/-- The credits one item adds when it contributes: the credits of the course
row its course id resolves to, zero when no course id is stored or the row is
missing. -/
def itemCredits (courseCredits : String → Option Int) (item : PlanItemRow) : Int :=
  match item.courseId with
  | some courseId => (courseCredits courseId).getD 0
  | none => 0

/-- The detail payload stored on a DegreeAuditRequirement row: the UNKNOWN
shape `{reason: UNSUPPORTED_RULE, explanations}` or the PENDING / MISSING shape
`{missingCourses, explanations}`. -/
inductive RequirementDetail
  | unsupportedRule (explanations : List String)
  | progress (missingCourses : List String) (explanations : List String)
deriving DecidableEq, Repr

/-- Embeds the per-node classification of `recompute_audit` (lines 87-121):
evaluate against completed codes; unsupported yields UNKNOWN, satisfied yields
SATISFIED, otherwise re-evaluate against completed union pending, with
unsupported yielding UNKNOWN, satisfied PENDING and anything else MISSING, the
last two storing the first evaluation's missing courses and explanations. -/
def classifyRequirement (rule : Rule) (completedCodes pendingCodes : Finset String) :
    AuditRequirementStatus × Option RequirementDetail :=
  let completedEval := evaluateDegreeRequirementRuleOn rule completedCodes
  if completedEval.supported = false then
    (.UNKNOWN, some (.unsupportedRule completedEval.explanation_codes))
  else if completedEval.satisfied then
    (.SATISFIED, none)
  else
    let unionEval := evaluateDegreeRequirementRuleOn rule (completedCodes ∪ pendingCodes)
    if unionEval.supported = false then
      (.UNKNOWN, some (.unsupportedRule unionEval.explanation_codes))
    else if unionEval.satisfied then
      (.PENDING, some (.progress completedEval.missing_courses completedEval.explanation_codes))
    else
      (.MISSING, some (.progress completedEval.missing_courses completedEval.explanation_codes))

/-! Certification state machine, from `app/api/routes/plans.py` and
`app/services/plans.py`. Route handlers either commit a new certification state
or raise (PLAN_NOT_READY and the blocker list surface as a 409, leaving the
state untouched). `readyOk` stands for the `ok` field of the fresh
`evaluate_plan_ready` result; neither `recompute_audit` nor
`evaluate_plan_ready` writes the certification state, so their embeddings carry
none. -/

/-- State effect of `mark_ready` (`plans.py` routes, lines 192-233): the
readiness check gates the transition, but the current state is never read, and
success commits READY whatever the state was. -/
def markReadyTransition (_state : CertificationState) (readyOk : Bool) :
    Except String CertificationState :=
  if readyOk then .ok .READY else .error "PLAN_NOT_READY"

/-- State effect of `finalize` (`plans.py` routes, lines 290-333): requires the
current state to be READY, then a fresh passing readiness check, then commits
CERTIFIED. -/
def finalizeTransition (state : CertificationState) (readyOk : Bool) :
    Except String CertificationState :=
  if state ≠ CertificationState.READY then .error "PLAN_NOT_READY"
  else if readyOk then .ok .CERTIFIED
  else .error "PLAN_NOT_READY"

/-- Certification-state effect of `upsert_plan_item` (`services/plans.py` lines
26-36), applied before the item is validated: READY flips to DRAFT, any other
state is untouched. -/
def upsertCertEffect (state : CertificationState) : CertificationState :=
  if state = CertificationState.READY then .DRAFT else state

/-- The audit-log reason recorded by the same block: PLAN_ITEM_MUTATION exactly
when the reversion fires. -/
def upsertRevertLogReason (state : CertificationState) : Option String :=
  if state = CertificationState.READY then some "PLAN_ITEM_MUTATION" else none

/-- Keyword parameters of `validate_plan_item` as defined in
`services/validation.py` lines 78-85. -/
def validatePlanItemParams : List String :=
  ["plan_id", "term_id", "position", "raw_input"]

/-- Keyword arguments passed to `validate_plan_item` by `upsert_plan_item` in
`services/plans.py` lines 38-45. -/
def upsertValidateCallKeywords : List String :=
  ["plan_id", "term_id", "position", "raw_input", "completion_status"]

/-- A Python keyword call binds only when every keyword names a declared
parameter; otherwise the call raises TypeError before the body runs. -/
def upsertValidateCallBinds : Bool :=
  upsertValidateCallKeywords.all (fun k => validatePlanItemParams.contains k)

/-- Legacy rule trees built only from course and all nodes, the shared fragment
of the two dialects compared by the conversion layer. -/
def isCourseAllTree : Rule → Bool
  | .course _ => true
  | .allR children => children.attach.all (fun c => isCourseAllTree c.1)
  | _ => false
termination_by r => sizeOf r
decreasing_by
  all_goals simp_wf
  all_goals have h := List.sizeOf_lt_of_mem c.2
  all_goals omega

/-! Theorems. First a size-based induction principle for rule trees and general
lemmas about the evaluators, then one theorem per claim. -/

/-- Induction over rule trees with inductive hypotheses for all list members. -/
theorem Rule.deepInduction {P : Rule → Prop}
    (hcourse : ∀ code, P (.course code))
    (hany : ∀ children, (∀ c ∈ children, P c) → P (.anyR children))
    (hall : ∀ children, (∀ c ∈ children, P c) → P (.allR children))
    (hcal : ∀ count of, (∀ c ∈ of, P c) → P (.countAtLeast count of))
    (hcs : ∀ courses, P (.courseSet courses))
    (hallOf : ∀ children, (∀ c ∈ children, P c) → P (.allOf children))
    (hnOf : ∀ n children, (∀ c ∈ children, P c) → P (.nOf n children))
    (hcm : ∀ minCount children, (∀ c ∈ children, P c) → P (.countMin minCount children))
    (hot : P .otherTyped)
    (hjunk : P .junk) :
    ∀ r, P r
  | .course code => hcourse code
  | .anyR children =>
      hany children (fun c _ =>
        Rule.deepInduction hcourse hany hall hcal hcs hallOf hnOf hcm hot hjunk c)
  | .allR children =>
      hall children (fun c _ =>
        Rule.deepInduction hcourse hany hall hcal hcs hallOf hnOf hcm hot hjunk c)
  | .countAtLeast count of =>
      hcal count of (fun c _ =>
        Rule.deepInduction hcourse hany hall hcal hcs hallOf hnOf hcm hot hjunk c)
  | .courseSet courses => hcs courses
  | .allOf children =>
      hallOf children (fun c _ =>
        Rule.deepInduction hcourse hany hall hcal hcs hallOf hnOf hcm hot hjunk c)
  | .nOf n children =>
      hnOf n children (fun c _ =>
        Rule.deepInduction hcourse hany hall hcal hcs hallOf hnOf hcm hot hjunk c)
  | .countMin minCount children =>
      hcm minCount children (fun c _ =>
        Rule.deepInduction hcourse hany hall hcal hcs hallOf hnOf hcm hot hjunk c)
  | .otherTyped => hot
  | .junk => hjunk
termination_by r => sizeOf r
decreasing_by
  all_goals simp_wf
  all_goals rename_i hmem
  all_goals have h := List.sizeOf_lt_of_mem hmem
  all_goals omega

/-- Rejecting `_finalize` calls all build the one canonical unsupported result. -/
theorem finalizeResult_false (b : Bool) (m e : Finset String) :
    finalizeResult false b m e = unsupportedResult := rfl

/-- Evaluates `sorted(set(...))` on a concrete set: the sorted duplicate-free
enumeration is the unique one. -/
theorem sortedCodes_eq_of (l : List String) (s : Finset String) (hn : l.Nodup)
    (hsorted : l.Sorted (· ≤ ·)) (hs : l.toFinset = s) : sortedCodes s = l := by
  unfold sortedCodes
  rw [← hs]
  exact (List.toFinset_sort (· ≤ ·) hn).mpr hsorted

/-- Evaluates `order_explanations` on a concrete set, same way. -/
theorem orderExplanations_eq_of (l : List String) (s : Finset String) (hn : l.Nodup)
    (hsorted : l.Sorted explLe) (hs : l.toFinset = s) : orderExplanations s = l := by
  unfold orderExplanations
  rw [← hs]
  exact (List.toFinset_sort explLe hn).mpr hsorted

/-- Sorting a singleton code set. -/
theorem sortedCodes_singleton (a : String) : sortedCodes {a} = [a] := by
  unfold sortedCodes
  exact Finset.sort_singleton _ a

/-- One audit partition step adds a code to the completed set exactly for a
VALID item carrying that truthy canonical code with completion YES. -/
theorem evidenceStep_completed_mem (courseCredits : String → Option Int)
    (acc : EvidenceTotals) (item : PlanItemRow) (c : String) :
    c ∈ (evidenceStep courseCredits acc item).completedCodes ↔
      c ∈ acc.completedCodes ∨
        (item.planItemStatus = PlanItemStatus.VALID ∧ item.canonicalCode = some c ∧
          c ≠ "" ∧ item.completionStatus = CompletionStatus.YES) := by
  obtain ⟨tid, pos, raw, cc, cid, st, comp⟩ := item
  cases cc with
  | none => cases st <;> simp [evidenceStep]
  | some code =>
      cases st <;> by_cases hcode : code = "" <;> cases comp <;>
        simp [evidenceStep, hcode, Finset.mem_insert] <;> aesop

/-- One audit partition step adds a code to the pending set exactly for a VALID
item carrying that truthy canonical code with completion IN_PROGRESS. -/
theorem evidenceStep_pending_mem (courseCredits : String → Option Int)
    (acc : EvidenceTotals) (item : PlanItemRow) (c : String) :
    c ∈ (evidenceStep courseCredits acc item).pendingCodes ↔
      c ∈ acc.pendingCodes ∨
        (item.planItemStatus = PlanItemStatus.VALID ∧ item.canonicalCode = some c ∧
          c ≠ "" ∧ item.completionStatus = CompletionStatus.IN_PROGRESS) := by
  obtain ⟨tid, pos, raw, cc, cid, st, comp⟩ := item
  cases cc with
  | none => cases st <;> simp [evidenceStep]
  | some code =>
      cases st <;> by_cases hcode : code = "" <;> cases comp <;>
        simp [evidenceStep, hcode, Finset.mem_insert] <;> aesop

/-- One audit partition step adds to the completed credits exactly the
contributing item's resolved credits. -/
theorem evidenceStep_completedCredits (courseCredits : String → Option Int)
    (acc : EvidenceTotals) (item : PlanItemRow) :
    (evidenceStep courseCredits acc item).completedCredits =
      acc.completedCredits +
        (if contributesCompleted item then itemCredits courseCredits item else 0) := by
  obtain ⟨tid, pos, raw, cc, cid, st, comp⟩ := item
  cases cc with
  | none => cases st <;> simp [evidenceStep, contributesCompleted]
  | some code =>
      cases st <;> by_cases hcode : code = "" <;> cases comp <;>
        simp [evidenceStep, contributesCompleted, hcode, itemCredits] <;>
        cases cid <;> try rfl
      all_goals rename_i cid
      all_goals cases hcc : courseCredits cid <;> simp [hcc, Option.getD]

/-- One audit partition step adds to the pending credits exactly the
contributing item's resolved credits. -/
theorem evidenceStep_pendingCredits (courseCredits : String → Option Int)
    (acc : EvidenceTotals) (item : PlanItemRow) :
    (evidenceStep courseCredits acc item).pendingCredits =
      acc.pendingCredits +
        (if contributesPending item then itemCredits courseCredits item else 0) := by
  obtain ⟨tid, pos, raw, cc, cid, st, comp⟩ := item
  cases cc with
  | none => cases st <;> simp [evidenceStep, contributesPending]
  | some code =>
      cases st <;> by_cases hcode : code = "" <;> cases comp <;>
        simp [evidenceStep, contributesPending, hcode, itemCredits] <;>
        cases cid <;> try rfl
      all_goals rename_i cid
      all_goals cases hcc : courseCredits cid <;> simp [hcc, Option.getD]

/-- Completed-codes membership across the whole partition loop. -/
theorem collect_fold_completed_mem (courseCredits : String → Option Int) :
    ∀ (items : List PlanItemRow) (acc : EvidenceTotals) (c : String),
      c ∈ (items.foldl (evidenceStep courseCredits) acc).completedCodes ↔
        c ∈ acc.completedCodes ∨
          ∃ i ∈ items, i.planItemStatus = PlanItemStatus.VALID ∧ i.canonicalCode = some c ∧
            c ≠ "" ∧ i.completionStatus = CompletionStatus.YES
  | [], acc, c => by simp
  | item :: rest, acc, c => by
      rw [List.foldl_cons, collect_fold_completed_mem courseCredits rest _ c,
        evidenceStep_completed_mem]
      constructor
      · rintro ((h | h) | ⟨i, hi, hrest⟩)
        · exact Or.inl h
        · exact Or.inr ⟨item, List.mem_cons_self _ _, h⟩
        · exact Or.inr ⟨i, List.mem_cons_of_mem _ hi, hrest⟩
      · rintro (h | ⟨i, hi, hrest⟩)
        · exact Or.inl (Or.inl h)
        · rcases List.mem_cons.mp hi with rfl | hi
          · exact Or.inl (Or.inr hrest)
          · exact Or.inr ⟨i, hi, hrest⟩

/-- Pending-codes membership across the whole partition loop. -/
theorem collect_fold_pending_mem (courseCredits : String → Option Int) :
    ∀ (items : List PlanItemRow) (acc : EvidenceTotals) (c : String),
      c ∈ (items.foldl (evidenceStep courseCredits) acc).pendingCodes ↔
        c ∈ acc.pendingCodes ∨
          ∃ i ∈ items, i.planItemStatus = PlanItemStatus.VALID ∧ i.canonicalCode = some c ∧
            c ≠ "" ∧ i.completionStatus = CompletionStatus.IN_PROGRESS
  | [], acc, c => by simp
  | item :: rest, acc, c => by
      rw [List.foldl_cons, collect_fold_pending_mem courseCredits rest _ c,
        evidenceStep_pending_mem]
      constructor
      · rintro ((h | h) | ⟨i, hi, hrest⟩)
        · exact Or.inl h
        · exact Or.inr ⟨item, List.mem_cons_self _ _, h⟩
        · exact Or.inr ⟨i, List.mem_cons_of_mem _ hi, hrest⟩
      · rintro (h | ⟨i, hi, hrest⟩)
        · exact Or.inl (Or.inl h)
        · rcases List.mem_cons.mp hi with rfl | hi
          · exact Or.inl (Or.inr hrest)
          · exact Or.inr ⟨i, hi, hrest⟩

/-- Completed credits across the whole partition loop. -/
theorem collect_fold_completedCredits (courseCredits : String → Option Int) :
    ∀ (items : List PlanItemRow) (acc : EvidenceTotals),
      (items.foldl (evidenceStep courseCredits) acc).completedCredits =
        acc.completedCredits +
          ((items.filter contributesCompleted).map (itemCredits courseCredits)).sum
  | [], acc => by simp
  | item :: rest, acc => by
      rw [List.foldl_cons, collect_fold_completedCredits courseCredits rest _]
      rw [evidenceStep_completedCredits]
      by_cases h : contributesCompleted item <;> simp [h] <;> ring

/-- Pending credits across the whole partition loop. -/
theorem collect_fold_pendingCredits (courseCredits : String → Option Int) :
    ∀ (items : List PlanItemRow) (acc : EvidenceTotals),
      (items.foldl (evidenceStep courseCredits) acc).pendingCredits =
        acc.pendingCredits +
          ((items.filter contributesPending).map (itemCredits courseCredits)).sum
  | [], acc => by simp
  | item :: rest, acc => by
      rw [List.foldl_cons, collect_fold_pendingCredits courseCredits rest _]
      rw [evidenceStep_pendingCredits]
      by_cases h : contributesPending item <;> simp [h] <;> ring

/-- Evaluation of a singleton COURSE_SET leaf: satisfied exactly on evidence
membership, with the fixed missing/explanation payload otherwise. -/
theorem evalV2_courseSet_single (ev : Finset String) (c : String) :
    evalV2 ev (.courseSet [c]) =
      if c ∈ ev then ⟨true, true, [], [EXPLANATION_SATISFIED]⟩
      else ⟨true, false, [c], [EXPLANATION_REQUIRED_MISSING, EXPLANATION_INCOMPLETE]⟩ := by
  have hsc : sortedCodes ([c] : List String).toFinset = [c] :=
    sortedCodes_eq_of _ _ (by simp) (by simp) rfl
  have hOE : orderExplanations
      (({EXPLANATION_REQUIRED_MISSING, EXPLANATION_INCOMPLETE} : Finset String).erase
        EXPLANATION_SATISFIED)
      = [EXPLANATION_REQUIRED_MISSING, EXPLANATION_INCOMPLETE] :=
    orderExplanations_eq_of _ _ (by decide) (by decide) (by decide)
  by_cases hc : c ∈ ev
  · simp [evalV2, hsc, hc, finalizeResult, sortedCodes_singleton]
  · simp [evalV2, hsc, hc, finalizeResult, hOE, sortedCodes_singleton]

/-- Every cardinality decision is a `_finalize` application. -/
theorem minRequiredFrom_is_finalize (m : Int) (s : scanOutcome) :
    ∃ a b mm ee, minRequiredFrom m s = finalizeResult a b mm ee := by
  cases s with
  | none => exact ⟨false, false, ∅, ∅, rfl⟩
  | some p =>
      obtain ⟨cnt, failed⟩ := p
      unfold minRequiredFrom
      dsimp only
      by_cases h : (cnt : Int) ≥ m
      · rw [if_pos h]
        exact ⟨_, _, _, _, rfl⟩
      · rw [if_neg h]
        exact ⟨_, _, _, _, rfl⟩

/-- Every `_eval_v2` result is a `_finalize` application. -/
theorem evalV2_is_finalize (ev : Finset String) (r : Rule) :
    ∃ a b mm ee, evalV2 ev r = finalizeResult a b mm ee := by
  cases r <;> simp only [evalV2]
  case nOf n children => exact minRequiredFrom_is_finalize _ _
  case countMin m children => exact minRequiredFrom_is_finalize _ _
  all_goals repeat' split
  all_goals exact ⟨_, _, _, _, rfl⟩

/-- Every public evaluation result is a `_finalize` application. -/
theorem evaluateOn_is_finalize (rule : Rule) (ev : Finset String) :
    ∃ a b mm ee, evaluateDegreeRequirementRuleOn rule ev = finalizeResult a b mm ee := by
  unfold evaluateDegreeRequirementRuleOn
  split
  · exact ⟨_, _, _, _, rfl⟩
  · split
    · exact evalV2_is_finalize _ _
    · exact ⟨_, _, _, _, rfl⟩

/-- `_finalize` always emits missing courses sorted without duplicates and
explanation codes in (priority, code) order without duplicates. -/
theorem finalizeResult_props (a b : Bool) (m e : Finset String) :
    (finalizeResult a b m e).missing_courses.Pairwise (· ≤ ·) ∧
    (finalizeResult a b m e).missing_courses.Nodup ∧
    (finalizeResult a b m e).explanation_codes.Pairwise explLe ∧
    (finalizeResult a b m e).explanation_codes.Nodup := by
  unfold finalizeResult
  split
  · simp
  · split
    · simp
    · exact ⟨Finset.sort_sorted _ _, Finset.sort_nodup _ _,
        Finset.sort_sorted _ _, Finset.sort_nodup _ _⟩

/-- Claim C9. The current-dialect evaluate is a pure function of the evidence
set: any two evidence collections denoting the same set of codes give the same
result in every field, and the result's missingCourses list is always sorted
and duplicate-free while its explanationCodes list is always ordered by the
fixed (priority, code) key without duplicates. -/
theorem evaluate_deterministic (rule : Rule) (e1 e2 : List String)
    (h : e1.toFinset = e2.toFinset) :
    evaluateDegreeRequirementRule rule e1 = evaluateDegreeRequirementRule rule e2 ∧
    (evaluateDegreeRequirementRule rule e1).missing_courses.Pairwise (· ≤ ·) ∧
    (evaluateDegreeRequirementRule rule e1).missing_courses.Nodup ∧
    (evaluateDegreeRequirementRule rule e1).explanation_codes.Pairwise explLe ∧
    (evaluateDegreeRequirementRule rule e1).explanation_codes.Nodup := by
  have hx : evaluateDegreeRequirementRule rule e1 = evaluateDegreeRequirementRule rule e2 := by
    unfold evaluateDegreeRequirementRule
    rw [h]
  obtain ⟨a, b, mm, ee, hf⟩ := evaluateOn_is_finalize rule e1.toFinset
  have hprops := finalizeResult_props a b mm ee
  refine ⟨hx, ?_, ?_, ?_, ?_⟩ <;> unfold evaluateDegreeRequirementRule <;> rw [hf] <;> tauto

/-- Claim C9, witness: two evidence lists in different construction order with
a duplicate still evaluate identically. -/
theorem evaluate_deterministic_witness :
    (["14:540:200", "14:540:100"] : List String).toFinset
        = (["14:540:100", "14:540:200", "14:540:100"] : List String).toFinset ∧
    evaluateDegreeRequirementRule
        (.allOf [.courseSet ["14:540:100"], .courseSet ["14:540:300"]])
        ["14:540:200", "14:540:100"]
      = evaluateDegreeRequirementRule
        (.allOf [.courseSet ["14:540:100"], .courseSet ["14:540:300"]])
        ["14:540:100", "14:540:200", "14:540:100"] :=
  ⟨by decide,
   (evaluate_deterministic (.allOf [.courseSet ["14:540:100"], .courseSet ["14:540:300"]])
      ["14:540:200", "14:540:100"] ["14:540:100", "14:540:200", "14:540:100"] (by decide)).1⟩

/-- Claim C1, counterexample. The claim says no core operation ever changes a
CERTIFIED certification state, in particular that mark_ready never moves a
CERTIFIED plan back to READY; but `mark_ready` in `api/routes/plans.py` never
reads the current state, so a CERTIFIED plan whose fresh readiness check passes
is committed straight to READY. -/
theorem markReady_escapes_certified :
    markReadyTransition CertificationState.CERTIFIED true = Except.ok CertificationState.READY ∧
    CertificationState.READY ≠ CertificationState.CERTIFIED :=
  ⟨rfl, by decide⟩

/-- Claim C1, amended. A CERTIFIED state is preserved by finalize (which
rejects with PLAN_NOT_READY since the state is not READY), by item upsert
(whose reversion only fires on READY, logging nothing otherwise), and by
mark_ready when the readiness check fails; but mark_ready with a passing
readiness check moves even a CERTIFIED plan to READY, the one escape from
CERTIFIED. Audit recompute and the readiness check never write the
certification state (their embeddings carry none). -/
theorem certified_preservation :
    (∀ readyOk, finalizeTransition CertificationState.CERTIFIED readyOk
        = Except.error "PLAN_NOT_READY") ∧
    upsertCertEffect CertificationState.CERTIFIED = CertificationState.CERTIFIED ∧
    upsertRevertLogReason CertificationState.CERTIFIED = none ∧
    markReadyTransition CertificationState.CERTIFIED false = Except.error "PLAN_NOT_READY" ∧
    markReadyTransition CertificationState.CERTIFIED true = Except.ok CertificationState.READY :=
  ⟨fun readyOk => by cases readyOk <;> rfl, rfl, rfl, rfl, rfl⟩

/-- Claim C4, code bug. The claim describes `upsert_plan_item`: on a READY plan
it first flips the state to DRAFT and logs PLAN_ITEM_MUTATION before the item
is validated, and leaves any other state unchanged. The reversion block does
exactly that, but the subsequent call to `validate_plan_item` passes the
keyword completion_status which the function signature in
`services/validation.py` does not declare, so every upsert raises TypeError at
that call and never persists, while the repository's own tests
(test_validation.py, test_readiness.py, test_finalize.py) expect those upserts
to succeed. -/
theorem upsert_validate_signature_mismatch :
    upsertValidateCallBinds = false ∧
    upsertValidateCallKeywords.contains "completion_status" = true ∧
    validatePlanItemParams.contains "completion_status" = false ∧
    upsertCertEffect CertificationState.READY = CertificationState.DRAFT ∧
    upsertRevertLogReason CertificationState.READY = some "PLAN_ITEM_MUTATION" ∧
    upsertCertEffect CertificationState.DRAFT = CertificationState.DRAFT ∧
    upsertCertEffect CertificationState.CERTIFIED = CertificationState.CERTIFIED := by
  refine ⟨by decide, by decide, by decide, rfl, rfl, rfl, rfl⟩

/-- Claim C5, code bug. The cardinality mechanics of
`_eval_min_required_children` follow the claim for N_OF and COUNT_MIN alike:
the embedded function satisfies the spec example for both node kinds, and the
N_OF form also satisfies it through the public evaluator. But
DEGREE_DSL_SCHEMA_V2 in `degree_dsl_schema.py` has no COUNT_MIN variant in its
oneOf, so `evaluate_degree_requirement_rule` rejects every COUNT_MIN rule as
unsupported, never reaching those mechanics, while the repository's own tests
(test_evaluate_count_min_satisfied_and_failed, test_count_min_parity_with_equivalent_n_of,
test_degree_dsl_schema_accepts_course_set_all_of_n_of_and_count_min) expect
COUNT_MIN to validate and evaluate exactly as the claim states. -/
theorem count_min_schema_gap :
    evaluateDegreeRequirementRule
        (.countMin 2 [.courseSet ["14:540:100"], .courseSet ["14:540:200"],
          .courseSet ["14:540:300"]])
        ["14:540:100", "14:540:300"] = unsupportedResult ∧
    evalMinRequiredChildren (["14:540:100", "14:540:300"] : List String).toFinset 2
        [.courseSet ["14:540:100"], .courseSet ["14:540:200"], .courseSet ["14:540:300"]]
      = ⟨true, true, [], [EXPLANATION_SATISFIED]⟩ ∧
    evalMinRequiredChildren (["14:540:100"] : List String).toFinset 2
        [.courseSet ["14:540:100"], .courseSet ["14:540:200"], .courseSet ["14:540:300"]]
      = ⟨true, false, ["14:540:200"],
          [EXPLANATION_REQUIRED_MISSING, EXPLANATION_INCOMPLETE]⟩ ∧
    evaluateDegreeRequirementRule
        (.nOf 2 [.courseSet ["14:540:100"], .courseSet ["14:540:200"],
          .courseSet ["14:540:300"]])
        ["14:540:100"]
      = ⟨true, false, ["14:540:200"],
          [EXPLANATION_REQUIRED_MISSING, EXPLANATION_INCOMPLETE]⟩ := by
  have h1 : isCanonicalCode "14:540:100" = true := by decide
  have h2 : isCanonicalCode "14:540:200" = true := by decide
  have h3 : isCanonicalCode "14:540:300" = true := by decide
  have hInner : orderExplanations
      (({EXPLANATION_REQUIRED_MISSING, EXPLANATION_INCOMPLETE} : Finset String).erase
        EXPLANATION_SATISFIED)
      = [EXPLANATION_REQUIRED_MISSING, EXPLANATION_INCOMPLETE] :=
    orderExplanations_eq_of _ _ (by decide) (by decide) (by decide)
  refine ⟨?_, ?_, ?_, ?_⟩
  · simp [evaluateDegreeRequirementRule, evaluateDegreeRequirementRuleOn,
      convertLegacyRuleToDegreeDslV2, schemaOkV2, finalizeResult_false]
  · simp [evalMinRequiredChildren, scanChildren, evalV2_courseSet_single,
      minRequiredFrom, finalizeResult]
  · simp [evalMinRequiredChildren, scanChildren, evalV2_courseSet_single,
      minRequiredFrom, finalizeResult, hInner, sortedCodes_singleton]
    exact orderExplanations_eq_of _ _ (by decide) (by decide) (by decide)
  · simp [evaluateDegreeRequirementRule, evaluateDegreeRequirementRuleOn,
      convertLegacyRuleToDegreeDslV2, schemaOkV2, semanticsOkV2, evalV2, scanChildren,
      minRequiredFrom, finalizeResult, h1, h2, h3, hInner, sortedCodes_singleton,
      evalV2_courseSet_single]
    exact orderExplanations_eq_of _ _ (by decide) (by decide) (by decide)

/-- One history-scan step adds a code exactly for an item whose term resolves,
which passes the inclusion test, and whose evidence code is that code. -/
theorem historyStep_mem (termById : String → Option Term) (ct : Term) (cp : Int)
    (acc : Finset String) (item : PlanItemRow) (c : String) :
    c ∈ historyStep termById ct cp acc item ↔
      c ∈ acc ∨ ∃ t, termById item.termId = some t ∧
        historyInclude ct cp t item = true ∧ itemEvidenceCode item = some c := by
  unfold historyStep
  cases ht : termById item.termId with
  | none => simp
  | some t =>
      by_cases hinc : historyInclude ct cp t item
      · cases hcode : itemEvidenceCode item with
        | none => simp [hinc, hcode]
        | some code => simp [hinc, hcode, Finset.mem_insert] <;> aesop
      · simp [hinc]

/-- Membership across the whole history-scan loop. -/
theorem availableHistory_fold_mem (termById : String → Option Term) (ct : Term) (cp : Int) :
    ∀ (items : List PlanItemRow) (acc : Finset String) (c : String),
      c ∈ items.foldl (historyStep termById ct cp) acc ↔
        c ∈ acc ∨ ∃ item ∈ items, ∃ t, termById item.termId = some t ∧
          historyInclude ct cp t item = true ∧ itemEvidenceCode item = some c
  | [], acc, c => by simp
  | item :: rest, acc, c => by
      rw [List.foldl_cons, availableHistory_fold_mem termById ct cp rest _ c,
        historyStep_mem]
      constructor
      · rintro ((h | h) | ⟨i, hi, hrest⟩)
        · exact Or.inl h
        · exact Or.inr ⟨item, List.mem_cons_self _ _, h⟩
        · exact Or.inr ⟨i, List.mem_cons_of_mem _ hi, hrest⟩
      · rintro (h | ⟨i, hi, hrest⟩)
        · exact Or.inl (Or.inl h)
        · rcases List.mem_cons.mp hi with rfl | hi
          · exact Or.inl (Or.inr hrest)
          · exact Or.inr ⟨i, hi, hrest⟩

/-- Claim C8. An item contributes its evidence code to the available-history
set exactly when its term resolves and either sorts strictly before the
current term under (year, seasonRank, code) with WINTER=1, SPRING=2, SUMMER=3,
FALL=4, or is the current term itself while that term's season is SUMMER, the
item's position is strictly smaller and its completion status is YES; same-term
items with completion NO or IN_PROGRESS, or in a non-summer term, contribute
nothing, and strictly-earlier items contribute regardless of completion. -/
theorem available_history_characterization (termById : String → Option Term)
    (items : List PlanItemRow) (currentTerm : Term) (currentPosition : Int) (c : String) :
    (c ∈ availableHistoryCodes termById items currentTerm currentPosition ↔
      ∃ item ∈ items, ∃ t, termById item.termId = some t ∧ itemEvidenceCode item = some c ∧
        (termSortKeyLt t currentTerm = true ∨
          (currentTerm.season = TermSeason.SUMMER ∧ t.id = currentTerm.id ∧
            item.position < currentPosition ∧
            item.completionStatus = CompletionStatus.YES))) ∧
    seasonOrder TermSeason.WINTER = 1 ∧ seasonOrder TermSeason.SPRING = 2 ∧
    seasonOrder TermSeason.SUMMER = 3 ∧ seasonOrder TermSeason.FALL = 4 := by
  refine ⟨?_, rfl, rfl, rfl, rfl⟩
  rw [availableHistoryCodes, availableHistory_fold_mem]
  simp only [Finset.not_mem_empty, false_or]
  constructor
  · rintro ⟨i, hi, t, ht, hinc, hcode⟩
    refine ⟨i, hi, t, ht, hcode, ?_⟩
    simp [historyInclude, Bool.or_eq_true, Bool.and_eq_true, decide_eq_true_eq] at hinc
    tauto
  · rintro ⟨i, hi, t, ht, hcode, hinc⟩
    refine ⟨i, hi, t, ht, ?_, hcode⟩
    simp [historyInclude, Bool.or_eq_true, Bool.and_eq_true, decide_eq_true_eq]
    tauto

/-- Claim C10. The available-evidence computation never reads the items'
validity status (rewriting every status arbitrarily leaves the result
unchanged), and an item with no stored canonical code gets one extracted on the
fly from its raw input, so an INVALID, never-validated earlier item still
contributes: the concrete INVALID item with raw text containing 14:540:100 in
an earlier term makes that code available evidence. -/
theorem history_ignores_validity (termById : String → Option Term)
    (items : List PlanItemRow) (currentTerm : Term) (currentPosition : Int)
    (g : PlanItemRow → PlanItemStatus) :
    availableHistoryCodes termById
        (items.map (fun i => { i with planItemStatus := g i })) currentTerm currentPosition
      = availableHistoryCodes termById items currentTerm currentPosition ∧
    (∀ item : PlanItemRow, item.canonicalCode = none →
      itemEvidenceCode item = extractCanonicalCourseCode item.rawInput) ∧
    "14:540:100" ∈ availableHistoryCodes
        (fun tid => if tid = "t1" then some ⟨"t1", .SPRING, 2025, "2025SP"⟩
          else if tid = "t2" then some ⟨"t2", .FALL, 2025, "2025FA"⟩ else none)
        [⟨"t1", 1, "(14:540:100) Intro", none, none, .INVALID, .NO⟩]
        ⟨"t2", .FALL, 2025, "2025FA"⟩ 1 := by
  refine ⟨?_, ?_, ?_⟩
  · rw [availableHistoryCodes, availableHistoryCodes, List.foldl_map]
    congr 1
  · intro item h
    simp [itemEvidenceCode, h]
  · decide

/-- Claim C10, witness: the on-the-fly extraction clause applied to the
concrete INVALID item. -/
theorem history_ignores_validity_witness :
    itemEvidenceCode ⟨"t1", 1, "(14:540:100) Intro", none, none, .INVALID, .NO⟩
      = extractCanonicalCourseCode "(14:540:100) Intro" ∧
    extractCanonicalCourseCode "(14:540:100) Intro" = some "14:540:100" :=
  ⟨(history_ignores_validity (fun _ => none) [] ⟨"t", .FALL, 2025, "c"⟩ 0
      (fun _ => .DRAFT)).2.1
      ⟨"t1", 1, "(14:540:100) Intro", none, none, .INVALID, .NO⟩ rfl,
   by decide⟩

/-- Claim C3, counterexample. The claim says every item without a resolved
course id contributes nothing at all; but the loop in `recompute_audit` guards
on `canonical_code`, not `course_id`: a VALID, completion-YES item carrying a
canonical code and no course id still contributes its code to completedCodes
(with zero credits). -/
theorem audit_courseless_item_counterexample :
    "14:540:100" ∈ (collectEvidence (fun _ => none)
        [⟨"term-1", 1, "14:540:100", some "14:540:100", none, .VALID, .YES⟩]).completedCodes ∧
    (collectEvidence (fun _ => none)
        [⟨"term-1", 1, "14:540:100", some "14:540:100", none, .VALID, .YES⟩]).completedCredits
      = 0 := by
  constructor
  · decide
  · decide

/-- Claim C3, amended. Audit evidence is built only from VALID items with a
truthy canonical code: completion YES contributes the code to completedCodes,
IN_PROGRESS to pendingCodes, NO and BLANK contribute nothing, and items without
a canonical code contribute nothing; credits accumulate per contributing item
as the credits of the course row its course id resolves to, and zero (not
exclusion) when no course id or course row resolves. -/
theorem audit_evidence_characterization (courseCredits : String → Option Int)
    (items : List PlanItemRow) (c : String) :
    (c ∈ (collectEvidence courseCredits items).completedCodes ↔
      ∃ i ∈ items, i.planItemStatus = PlanItemStatus.VALID ∧ i.canonicalCode = some c ∧
        c ≠ "" ∧ i.completionStatus = CompletionStatus.YES) ∧
    (c ∈ (collectEvidence courseCredits items).pendingCodes ↔
      ∃ i ∈ items, i.planItemStatus = PlanItemStatus.VALID ∧ i.canonicalCode = some c ∧
        c ≠ "" ∧ i.completionStatus = CompletionStatus.IN_PROGRESS) ∧
    (collectEvidence courseCredits items).completedCredits =
      ((items.filter contributesCompleted).map (itemCredits courseCredits)).sum ∧
    (collectEvidence courseCredits items).pendingCredits =
      ((items.filter contributesPending).map (itemCredits courseCredits)).sum := by
  refine ⟨?_, ?_, ?_, ?_⟩
  · simpa [collectEvidence] using
      collect_fold_completed_mem courseCredits items ⟨∅, ∅, 0, 0⟩ c
  · simpa [collectEvidence] using
      collect_fold_pending_mem courseCredits items ⟨∅, ∅, 0, 0⟩ c
  · simpa [collectEvidence] using
      collect_fold_completedCredits courseCredits items ⟨∅, ∅, 0, 0⟩
  · simpa [collectEvidence] using
      collect_fold_pendingCredits courseCredits items ⟨∅, ∅, 0, 0⟩

/-- Claim C7. Whenever conversion fails (every countAtLeast node in
particular), the conversion returns none rather than raising, and the
current-dialect evaluator returns exactly the canonical unsupported result on
any evidence, even when a sub-rule such as a plain course leaf would evaluate
as fully supported on its own. -/
theorem unconvertible_rule_unsupported (r : Rule) (evidence : List String)
    (h : convertLegacyRuleToDegreeDslV2 r = none) :
    evaluateDegreeRequirementRule r evidence = unsupportedResult ∧
    (∀ count of, convertLegacyRuleToDegreeDslV2 (.countAtLeast count of) = none) ∧
    evaluateDegreeRequirementRule (.countAtLeast 1 [.course "14:540:100"]) ["14:540:100"]
      = unsupportedResult ∧
    evaluateDegreeRequirementRule (.course "14:540:100") ["14:540:100"]
      = ⟨true, true, [], [EXPLANATION_SATISFIED]⟩ := by
  refine ⟨?_, ?_, ?_, ?_⟩
  · simp [evaluateDegreeRequirementRule, evaluateDegreeRequirementRuleOn, h,
      finalizeResult_false]
  · intro count of
    simp [convertLegacyRuleToDegreeDslV2]
  · simp [evaluateDegreeRequirementRule, evaluateDegreeRequirementRuleOn,
      convertLegacyRuleToDegreeDslV2, finalizeResult_false]
  · have hcode : isCanonicalCode "14:540:100" = true := by decide
    simp [evaluateDegreeRequirementRule, evaluateDegreeRequirementRuleOn,
      convertLegacyRuleToDegreeDslV2, schemaOkV2, semanticsOkV2, hcode, evalV2,
      sortedCodes_singleton, finalizeResult]

/-- Claim C7, witness: the countAtLeast node from the spec example is
unconvertible and evaluates unsupported. -/
theorem unconvertible_rule_unsupported_witness :
    convertLegacyRuleToDegreeDslV2 (.countAtLeast 1 [.course "14:540:100"]) = none ∧
    evaluateDegreeRequirementRule (.countAtLeast 1 [.course "14:540:100"]) ["14:540:100"]
      = unsupportedResult :=
  ⟨by simp [convertLegacyRuleToDegreeDslV2],
   (unconvertible_rule_unsupported (.countAtLeast 1 [.course "14:540:100"]) ["14:540:100"]
      (by simp [convertLegacyRuleToDegreeDslV2])).1⟩

/-- A union fold over child results contains the accumulator and every
member's contribution. -/
theorem foldl_union_subset (f : DegreeRuleEvalResult → Finset String) :
    ∀ (l : List DegreeRuleEvalResult) (acc : Finset String),
      acc ⊆ l.foldl (fun s x => s ∪ f x) acc ∧
      ∀ r ∈ l, f r ⊆ l.foldl (fun s x => s ∪ f x) acc
  | [], acc => by simp
  | x :: rest, acc => by
      rw [List.foldl_cons]
      obtain ⟨hacc, hmem⟩ := foldl_union_subset f rest (acc ∪ f x)
      constructor
      · exact subset_trans Finset.subset_union_left hacc
      · intro r hr
        rcases List.mem_cons.mp hr with rfl | hr
        · exact subset_trans Finset.subset_union_right hacc
        · exact hmem r hr

/-- Sorting a non-empty set never yields the empty list. -/
theorem sortedCodes_ne_nil (s : Finset String) (h : s.Nonempty) : sortedCodes s ≠ [] := by
  intro hnil
  have hlen := Finset.length_sort (α := String) (· ≤ ·) (s := s)
  rw [show Finset.sort (· ≤ ·) s = sortedCodes s from rfl, hnil] at hlen
  simp at hlen
  rw [← Finset.card_pos] at h
  omega

/-- When the child scan survives poisoning, the failed list holds exactly the
evaluations of the unsatisfied (supported) children, and counts add up. -/
theorem scanChildren_some (ev : Finset String) :
    ∀ (children : List Rule) (cnt : Nat) (failed : List DegreeRuleEvalResult),
      scanChildren ev children = some (cnt, failed) →
      (∀ r ∈ failed, ∃ c ∈ children,
          r = evalV2 ev c ∧ r.supported = true ∧ r.satisfied = false) ∧
      cnt + failed.length = children.length
  | [], cnt, failed => by
      intro h
      simp only [scanChildren, Option.some.injEq, Prod.mk.injEq] at h
      obtain ⟨rfl, rfl⟩ := h
      simp
  | c :: rest, cnt, failed => by
      intro h
      simp only [scanChildren] at h
      by_cases hsup : (evalV2 ev c).supported = false
      · rw [if_pos hsup] at h
        exact absurd h (by simp)
      · rw [if_neg hsup] at h
        cases hrest : scanChildren ev rest with
        | none => rw [hrest] at h; exact absurd h (by simp)
        | some p =>
            obtain ⟨n, fs⟩ := p
            rw [hrest] at h
            dsimp only at h
            obtain ⟨hmem, hlen⟩ := scanChildren_some ev rest n fs hrest
            by_cases hsat : (evalV2 ev c).satisfied
            · rw [if_pos hsat] at h
              cases h
              refine ⟨?_, by simp only [List.length_cons]; omega⟩
              intro r hr
              obtain ⟨cc, hcc, hrr⟩ := hmem r hr
              exact ⟨cc, List.mem_cons_of_mem _ hcc, hrr⟩
            · rw [if_neg hsat] at h
              cases h
              refine ⟨?_, by simp only [List.length_cons]; omega⟩
              intro r hr
              rcases List.mem_cons.mp hr with rfl | hr
              · exact ⟨c, List.mem_cons_self _ _, rfl,
                  by simpa using hsup, by simpa using hsat⟩
              · obtain ⟨cc, hcc, hrr⟩ := hmem r hr
                exact ⟨cc, List.mem_cons_of_mem _ hcc, hrr⟩



/-- The supported-but-unsatisfied branch of `_finalize`, spelled out. -/
theorem finalizeResult_unsat (m e : Finset String) :
    finalizeResult true false m e =
      ⟨true, false, sortedCodes m,
        orderExplanations ((insert EXPLANATION_INCOMPLETE e).erase EXPLANATION_SATISFIED)⟩ := rfl

/-- The satisfied branch of `_finalize`, spelled out. -/
theorem finalizeResult_sat (m e : Finset String) :
    finalizeResult true true m e = ⟨true, true, [], [EXPLANATION_SATISFIED]⟩ := rfl

/-- On a shape- and semantics-valid rule, a supported evaluation that is not
satisfied always reports at least one missing course. -/
theorem evalV2_unsat_missing_nonempty :
    ∀ r : Rule, schemaOkV2 r = true → semanticsOkV2 r = true → ∀ ev : Finset String,
      (evalV2 ev r).supported = true → (evalV2 ev r).satisfied = false →
      (evalV2 ev r).missing_courses ≠ [] := by
  intro r
  induction r using Rule.deepInduction with
  | hcourse code => intro hschema; simp [schemaOkV2] at hschema
  | hany children ih => intro hschema; simp [schemaOkV2] at hschema
  | hall children ih => intro hschema; simp [schemaOkV2] at hschema
  | hcal count of ih => intro hschema; simp [schemaOkV2] at hschema
  | hcm minCount children ih => intro hschema; simp [schemaOkV2] at hschema
  | hot => intro hschema; simp [schemaOkV2] at hschema
  | hjunk => intro hschema; simp [schemaOkV2] at hschema
  | hcs courses =>
      intro hschema hsem ev hsup hsat
      simp only [schemaOkV2, Bool.and_eq_true, decide_eq_true_eq] at hschema
      obtain ⟨hlen, -⟩ := hschema
      rcases courses with - | ⟨c, - | ⟨d, t⟩⟩
      · simp at hlen
      · rw [evalV2_courseSet_single] at hsat ⊢
        by_cases hc : c ∈ ev
        · simp [hc] at hsat
        · simp [hc]
      · simp at hlen
  | hallOf children ih =>
      intro hschema hsem ev hsup hsat
      simp only [schemaOkV2, Bool.and_eq_true, List.all_eq_true, List.mem_attach,
        true_implies, Subtype.forall, decide_eq_true_eq] at hschema
      obtain ⟨-, hchildschema⟩ := hschema
      simp only [semanticsOkV2, Bool.and_eq_true, List.all_eq_true, List.mem_attach,
        true_implies, Subtype.forall, decide_eq_true_eq] at hsem
      obtain ⟨-, hchildsem⟩ := hsem
      simp only [evalV2] at hsup hsat ⊢
      cases hscan : scanChildren ev children with
      | none =>
          rw [hscan] at hsup
          simp [finalizeResult_false, unsupportedResult] at hsup
      | some p =>
          obtain ⟨cnt, failed⟩ := p
          rw [hscan] at hsup hsat
          dsimp only at hsup hsat ⊢
          by_cases hfe : failed.isEmpty
          · rw [if_pos hfe] at hsat
            simp [finalizeResult_sat] at hsat
          · rw [if_neg hfe] at hsat ⊢
            obtain ⟨hmem, -⟩ := scanChildren_some ev children cnt failed hscan
            obtain ⟨r0, rest0, rfl⟩ :=
              List.exists_cons_of_ne_nil (by simpa [List.isEmpty_iff] using hfe)
            have hr0 : r0 ∈ r0 :: rest0 := List.mem_cons_self _ _
            obtain ⟨c0, hc0, hr0eq, hr0sup, hr0sat⟩ := hmem r0 hr0
            have hr0miss : r0.missing_courses ≠ [] := by
              rw [hr0eq]
              exact ih c0 hc0 (hchildschema c0 hc0) (hchildsem c0 hc0) ev
                (hr0eq ▸ hr0sup) (hr0eq ▸ hr0sat)
            have hsub := (foldl_union_subset (fun x => x.missing_courses.toFinset)
              (r0 :: rest0) ∅).2 r0 hr0
            rw [finalizeResult_unsat]
            apply sortedCodes_ne_nil
            obtain ⟨x, hx⟩ := List.exists_mem_of_ne_nil _ hr0miss
            exact ⟨x, hsub (List.mem_toFinset.mpr hx)⟩
  | hnOf n children ih =>
      intro hschema hsem ev hsup hsat
      simp only [schemaOkV2, Bool.and_eq_true, List.all_eq_true, List.mem_attach,
        true_implies, Subtype.forall, decide_eq_true_eq] at hschema
      obtain ⟨⟨-, -⟩, hchildschema⟩ := hschema
      simp only [semanticsOkV2, Bool.and_eq_true, List.all_eq_true, List.mem_attach,
        true_implies, Subtype.forall, decide_eq_true_eq] at hsem
      obtain ⟨⟨⟨-, -⟩, hcount⟩, hchildsem⟩ := hsem
      simp only [evalV2] at hsup hsat ⊢
      cases hscan : scanChildren ev children with
      | none =>
          rw [hscan] at hsup
          simp [minRequiredFrom, finalizeResult_false, unsupportedResult] at hsup
      | some p =>
          obtain ⟨cnt, failed⟩ := p
          rw [hscan] at hsup hsat
          unfold minRequiredFrom at hsup hsat ⊢
          dsimp only at hsup hsat ⊢
          by_cases hge : (cnt : Int) ≥ n
          · rw [if_pos hge] at hsat
            simp [finalizeResult_sat] at hsat
          · rw [if_neg hge] at hsat ⊢
            obtain ⟨hmem, hlen⟩ := scanChildren_some ev children cnt failed hscan
            have hfne : failed ≠ [] := by
              intro hnil
              rw [hnil] at hlen
              simp at hlen
              omega
            obtain ⟨r0, rest0, rfl⟩ := List.exists_cons_of_ne_nil hfne
            have htake : ∃ k, (n - (cnt : Int)).toNat = k + 1 := by
              have h1 : (1 : Int) ≤ n - cnt := by omega
              refine ⟨(n - (cnt : Int)).toNat - 1, ?_⟩
              omega
            obtain ⟨k, hk⟩ := htake
            have hr0w : r0 ∈ (r0 :: rest0).take (n - (cnt : Int)).toNat := by
              rw [hk, List.take_succ_cons]
              exact List.mem_cons_self _ _
            have hr0 : r0 ∈ r0 :: rest0 := List.mem_cons_self _ _
            obtain ⟨c0, hc0, hr0eq, hr0sup, hr0sat⟩ := hmem r0 hr0
            have hr0miss : r0.missing_courses ≠ [] := by
              rw [hr0eq]
              exact ih c0 hc0 (hchildschema c0 hc0) (hchildsem c0 hc0) ev
                (hr0eq ▸ hr0sup) (hr0eq ▸ hr0sat)
            have hsub := (foldl_union_subset (fun x => x.missing_courses.toFinset)
              ((r0 :: rest0).take (n - (cnt : Int)).toNat) ∅).2 r0 hr0w
            rw [finalizeResult_unsat]
            apply sortedCodes_ne_nil
            obtain ⟨x, hx⟩ := List.exists_mem_of_ne_nil _ hr0miss
            exact ⟨x, hsub (List.mem_toFinset.mpr hx)⟩



/-- The same property through the public evaluator, whose validation gate
guarantees the preconditions. -/
theorem evaluateOn_unsat_missing_nonempty (rule : Rule) (ev : Finset String)
    (hsup : (evaluateDegreeRequirementRuleOn rule ev).supported = true)
    (hsat : (evaluateDegreeRequirementRuleOn rule ev).satisfied = false) :
    (evaluateDegreeRequirementRuleOn rule ev).missing_courses ≠ [] := by
  unfold evaluateDegreeRequirementRuleOn at hsup hsat ⊢
  cases hconv : convertLegacyRuleToDegreeDslV2 rule with
  | none =>
      rw [hconv] at hsup
      simp [finalizeResult_false, unsupportedResult] at hsup
  | some conv =>
      rw [hconv] at hsup hsat
      dsimp only at hsup hsat ⊢
      by_cases hok : (schemaOkV2 conv && semanticsOkV2 conv) = true
      · rw [if_pos hok] at hsup hsat ⊢
        obtain ⟨h1, h2⟩ := (Bool.and_eq_true _ _).mp hok
        exact evalV2_unsat_missing_nonempty conv h1 h2 ev hsup hsat
      · rw [if_neg hok] at hsup
        simp [finalizeResult_false, unsupportedResult] at hsup

/-- Claim C2. The per-node audit classification follows the stored-order
cascade: an unsupported completed-only evaluation yields UNKNOWN with that
evaluation's explanations; a satisfied one yields SATISFIED; otherwise the
completed-union-pending evaluation decides, unsupported yielding UNKNOWN,
satisfied PENDING and unsatisfied MISSING, where both PENDING and MISSING
store the first (completed-only) evaluation's missing courses and explanation
codes -- and a PENDING node's stored missingCourses list is never empty. -/
theorem audit_classification_cascade (rule : Rule)
    (completedCodes pendingCodes : Finset String) :
    ((evaluateDegreeRequirementRuleOn rule completedCodes).supported = false →
      classifyRequirement rule completedCodes pendingCodes =
        (.UNKNOWN, some (.unsupportedRule
          (evaluateDegreeRequirementRuleOn rule completedCodes).explanation_codes))) ∧
    ((evaluateDegreeRequirementRuleOn rule completedCodes).supported = true →
      (evaluateDegreeRequirementRuleOn rule completedCodes).satisfied = true →
      classifyRequirement rule completedCodes pendingCodes = (.SATISFIED, none)) ∧
    ((evaluateDegreeRequirementRuleOn rule completedCodes).supported = true →
      (evaluateDegreeRequirementRuleOn rule completedCodes).satisfied = false →
      (evaluateDegreeRequirementRuleOn rule (completedCodes ∪ pendingCodes)).supported = false →
      classifyRequirement rule completedCodes pendingCodes =
        (.UNKNOWN, some (.unsupportedRule
          (evaluateDegreeRequirementRuleOn rule
            (completedCodes ∪ pendingCodes)).explanation_codes))) ∧
    ((evaluateDegreeRequirementRuleOn rule completedCodes).supported = true →
      (evaluateDegreeRequirementRuleOn rule completedCodes).satisfied = false →
      (evaluateDegreeRequirementRuleOn rule (completedCodes ∪ pendingCodes)).supported = true →
      (evaluateDegreeRequirementRuleOn rule (completedCodes ∪ pendingCodes)).satisfied = true →
      classifyRequirement rule completedCodes pendingCodes =
        (.PENDING, some (.progress
          (evaluateDegreeRequirementRuleOn rule completedCodes).missing_courses
          (evaluateDegreeRequirementRuleOn rule completedCodes).explanation_codes)) ∧
      (evaluateDegreeRequirementRuleOn rule completedCodes).missing_courses ≠ []) ∧
    ((evaluateDegreeRequirementRuleOn rule completedCodes).supported = true →
      (evaluateDegreeRequirementRuleOn rule completedCodes).satisfied = false →
      (evaluateDegreeRequirementRuleOn rule (completedCodes ∪ pendingCodes)).supported = true →
      (evaluateDegreeRequirementRuleOn rule (completedCodes ∪ pendingCodes)).satisfied = false →
      classifyRequirement rule completedCodes pendingCodes =
        (.MISSING, some (.progress
          (evaluateDegreeRequirementRuleOn rule completedCodes).missing_courses
          (evaluateDegreeRequirementRuleOn rule completedCodes).explanation_codes))) := by
  unfold classifyRequirement
  refine ⟨?_, ?_, ?_, ?_, ?_⟩
  · intro h1
    simp [h1]
  · intro h1 h2
    simp [h1, h2]
  · intro h1 h2 h3
    simp [h1, h2, h3]
  · intro h1 h2 h3 h4
    exact ⟨by simp [h1, h2, h3, h4],
      evaluateOn_unsat_missing_nonempty rule completedCodes h1 h2⟩
  · intro h1 h2 h3 h4
    simp [h1, h2, h3, h4]

/-- Claim C2, witness: a course required by the rule and only pending makes
the node PENDING with the completed-only evaluation's non-empty detail. -/
theorem audit_classification_cascade_witness :
    classifyRequirement (.courseSet ["14:540:100"]) ∅ {"14:540:100"} =
      (.PENDING, some (.progress
        (evaluateDegreeRequirementRuleOn (.courseSet ["14:540:100"]) ∅).missing_courses
        (evaluateDegreeRequirementRuleOn (.courseSet ["14:540:100"]) ∅).explanation_codes)) ∧
    (evaluateDegreeRequirementRuleOn (.courseSet ["14:540:100"])
      (∅ : Finset String)).missing_courses ≠ [] := by
  have hc : isCanonicalCode "14:540:100" = true := by decide
  have he1 : evaluateDegreeRequirementRuleOn (.courseSet ["14:540:100"]) (∅ : Finset String)
      = ⟨true, false, ["14:540:100"],
          [EXPLANATION_REQUIRED_MISSING, EXPLANATION_INCOMPLETE]⟩ := by
    simp [evaluateDegreeRequirementRuleOn, convertLegacyRuleToDegreeDslV2, schemaOkV2,
      semanticsOkV2, hc, evalV2_courseSet_single]
  have he2 : evaluateDegreeRequirementRuleOn (.courseSet ["14:540:100"])
      ((∅ : Finset String) ∪ {"14:540:100"})
      = ⟨true, true, [], [EXPLANATION_SATISFIED]⟩ := by
    simp [evaluateDegreeRequirementRuleOn, convertLegacyRuleToDegreeDslV2, schemaOkV2,
      semanticsOkV2, hc, evalV2_courseSet_single]
  exact (audit_classification_cascade (.courseSet ["14:540:100"]) ∅ {"14:540:100"}).2.2.2.1
    (by rw [he1]) (by rw [he1]) (by rw [he2]) (by rw [he2])

/-- A successful child conversion pairs each child with its converted form. -/
theorem convertChildren_some_forall :
    ∀ (l l2 : List Rule), convertChildren l = some l2 →
      List.Forall₂ (fun a b => convertLegacyRuleToDegreeDslV2 a = some b) l l2
  | [], l2 => by
      intro h
      simp only [convertChildren, Option.some.injEq] at h
      subst h
      exact List.Forall₂.nil
  | c :: rest, l2 => by
      intro h
      simp only [convertChildren] at h
      cases hc : convertLegacyRuleToDegreeDslV2 c with
      | none => rw [hc] at h; exact absurd h (by simp)
      | some cc =>
          rw [hc] at h
          cases hrest : convertChildren rest with
          | none => rw [hrest] at h; exact absurd h (by simp)
          | some l2r =>
              rw [hrest] at h
              dsimp only at h
              cases h
              exact List.Forall₂.cons hc (convertChildren_some_forall rest l2r hrest)

/-- A member of the left list of a pointwise relation has a related member on
the right. -/
theorem forall2_mem_left {R : Rule → Rule → Prop} :
    ∀ {l l2 : List Rule}, List.Forall₂ R l l2 → ∀ a ∈ l, ∃ b ∈ l2, R a b := by
  intro l l2 h
  induction h with
  | nil => intro a ha; exact absurd ha (by simp)
  | cons hR _ ih =>
      intro a ha
      rcases List.mem_cons.mp ha with rfl | ha
      · exact ⟨_, List.mem_cons_self _ _, hR⟩
      · obtain ⟨b, hb, hRb⟩ := ih a ha
        exact ⟨b, List.mem_cons_of_mem _ hb, hRb⟩

/-- List-level agreement: children that individually convert and agree give a
converted list on which the legacy all-loop and the current-dialect child scan
agree about whether anything failed. -/
theorem convertChildren_agree :
    ∀ (children : List Rule),
      (∀ c ∈ children, ∃ cc, convertLegacyRuleToDegreeDslV2 c = some cc ∧
          schemaOkV2 cc = true ∧ semanticsOkV2 cc = true ∧
          ∀ ev : Finset String,
            (evalNode false ev c).supported = true ∧ (evalV2 ev cc).supported = true ∧
            (evalNode false ev c).satisfied = (evalV2 ev cc).satisfied ∧
            ((evalNode false ev c).satisfied = false →
              (evalNode false ev c).missing_courses ≠ [])) →
      ∃ l2, convertChildren children = some l2 ∧ l2.length = children.length ∧
        (∀ cc ∈ l2, schemaOkV2 cc = true ∧ semanticsOkV2 cc = true) ∧
        ∀ ev : Finset String, ∃ m, evalNodeAllLoop false ev children = .ok m ∧
          ∃ cnt failed, scanChildren ev l2 = some (cnt, failed) ∧ (m = [] ↔ failed = [])
  | [] => by
      intro _
      refine ⟨[], rfl, rfl, by simp, ?_⟩
      intro ev
      exact ⟨[], rfl, 0, [], rfl, by simp⟩
  | c :: rest => by
      intro h
      obtain ⟨cc, hcv, hcs, hcm, hcev⟩ := h c (List.mem_cons_self _ _)
      obtain ⟨l2r, hl2r, hlen, hok, hev⟩ :=
        convertChildren_agree rest (fun x hx => h x (List.mem_cons_of_mem _ hx))
      refine ⟨cc :: l2r, ?_, by simp [hlen], ?_, ?_⟩
      · simp only [convertChildren, hcv, hl2r]
      · intro x hx
        rcases List.mem_cons.mp hx with rfl | hx
        · exact ⟨hcs, hcm⟩
        · exact hok x hx
      · intro ev
        obtain ⟨hs1, hs2, hsateq, hmiss⟩ := hcev ev
        obtain ⟨m, hloop, cnt, failed, hscan, hiff⟩ := hev ev
        refine ⟨(if (evalNode false ev c).satisfied then [] else
            (evalNode false ev c).missing_courses) ++ m, ?_, ?_⟩
        · simp only [evalNodeAllLoop, hs1, hloop]
          simp
        · by_cases hsat : (evalNode false ev c).satisfied
          · refine ⟨cnt + 1, failed, ?_, ?_⟩
            · simp only [scanChildren, hs2, hscan]
              rw [if_neg (by simp), if_pos (by rw [← hsateq]; exact hsat)]
            · simpa [hsat] using hiff
          · refine ⟨cnt, evalV2 ev cc :: failed, ?_, ?_⟩
            · simp only [scanChildren, hs2, hscan]
              rw [if_neg (by simp), if_neg (by rw [← hsateq]; simpa using hsat)]
            · have hm : (evalNode false ev c).missing_courses ≠ [] :=
                hmiss (by simpa using hsat)
              simp [hsat, hm]



/-- Course/all trees: when the legacy schema accepts the tree, conversion
succeeds, the converted tree passes the current-dialect checks and the two
recursive evaluators agree; when the legacy schema rejects it, any converted
form fails the current-dialect checks. -/
theorem courseAll_agree :
    ∀ t : Rule, isCourseAllTree t = true →
    (legacySchemaOk t = true →
      ∃ c, convertLegacyRuleToDegreeDslV2 t = some c ∧ schemaOkV2 c = true ∧
        semanticsOkV2 c = true ∧
        ∀ ev : Finset String,
          (evalNode false ev t).supported = true ∧
          (evalV2 ev c).supported = true ∧
          (evalNode false ev t).satisfied = (evalV2 ev c).satisfied ∧
          ((evalNode false ev t).satisfied = false →
            (evalNode false ev t).missing_courses ≠ [])) ∧
    (legacySchemaOk t = false →
      ∀ c, convertLegacyRuleToDegreeDslV2 t = some c →
        (schemaOkV2 c && semanticsOkV2 c) = false) := by
  intro t
  induction t using Rule.deepInduction with
  | hany children ih => intro hca; simp [isCourseAllTree] at hca
  | hcal count of ih => intro hca; simp [isCourseAllTree] at hca
  | hcs courses => intro hca; simp [isCourseAllTree] at hca
  | hallOf children ih => intro hca; simp [isCourseAllTree] at hca
  | hnOf n children ih => intro hca; simp [isCourseAllTree] at hca
  | hcm minCount children ih => intro hca; simp [isCourseAllTree] at hca
  | hot => intro hca; simp [isCourseAllTree] at hca
  | hjunk => intro hca; simp [isCourseAllTree] at hca
  | hcourse code =>
      intro _
      constructor
      · intro hleg
        simp only [legacySchemaOk] at hleg
        refine ⟨.courseSet [code], by simp [convertLegacyRuleToDegreeDslV2], ?_, ?_, ?_⟩
        · simp [schemaOkV2, hleg]
        · simp [semanticsOkV2]
        · intro ev
          rw [evalV2_courseSet_single]
          by_cases hc : code ∈ ev <;> simp [evalNode, hc]
      · intro hleg c hconv
        simp only [legacySchemaOk] at hleg
        simp only [convertLegacyRuleToDegreeDslV2, Option.some.injEq] at hconv
        subst hconv
        simp [schemaOkV2, hleg]
  | hall children ih =>
      intro hca
      simp only [isCourseAllTree, List.all_eq_true, List.mem_attach, true_implies,
        Subtype.forall] at hca
      constructor
      · intro hleg
        simp only [legacySchemaOk, Bool.and_eq_true, List.all_eq_true, List.mem_attach,
          true_implies, Subtype.forall, Bool.not_eq_true'] at hleg
        obtain ⟨hne, hlegc⟩ := hleg
        obtain ⟨l2, hl2, hlen, hok, hev⟩ := convertChildren_agree children
          (fun x hx => (ih x hx (hca x hx)).1 (hlegc x hx))
        have hl2ne : l2.isEmpty = false := by
          cases l2 with
          | nil =>
              rw [List.length_nil] at hlen
              cases children with
              | nil => simp at hne
              | cons a b => simp at hlen
          | cons a b => rfl
        refine ⟨.allOf l2, ?_, ?_, ?_, ?_⟩
        · simp only [convertLegacyRuleToDegreeDslV2, hl2]
          rw [if_neg (by simp [hne])]
        · simp only [schemaOkV2, hl2ne, Bool.and_eq_true, List.all_eq_true,
            List.mem_attach, true_implies, Subtype.forall]
          exact ⟨rfl, fun x hx => (hok x hx).1⟩
        · simp only [semanticsOkV2, hl2ne, Bool.and_eq_true, List.all_eq_true,
            List.mem_attach, true_implies, Subtype.forall]
          exact ⟨rfl, fun x hx => (hok x hx).2⟩
        · intro ev
          obtain ⟨m, hloop, cnt, failed, hscan, hiff⟩ := hev ev
          simp only [evalNode, hloop, evalV2, hscan]
          by_cases hm : m = []
          · have hf : failed = [] := hiff.mp hm
            subst hm hf
            simp [finalizeResult_sat]
          · have hf : failed ≠ [] := fun hfe => hm (hiff.mpr hfe)
            rw [if_neg (by simpa [List.isEmpty_iff] using hm),
              if_neg (by simpa [List.isEmpty_iff] using hf)]
            rw [finalizeResult_unsat]
            refine ⟨rfl, rfl, rfl, ?_⟩
            intro _
            obtain ⟨x, hx⟩ := List.exists_mem_of_ne_nil _ hm
            exact sortedCodes_ne_nil _ ⟨x, List.mem_toFinset.mpr hx⟩
      · intro hleg c hconv
        simp only [convertLegacyRuleToDegreeDslV2] at hconv
        by_cases hne : children.isEmpty
        · rw [if_pos hne] at hconv
          exact absurd hconv (by simp)
        · rw [if_neg hne] at hconv
          cases hcc : convertChildren children with
          | none => rw [hcc] at hconv; exact absurd hconv (by simp)
          | some l2 =>
              rw [hcc] at hconv
              dsimp only at hconv
              cases hconv
              have hbadex : ∃ c0 ∈ children, legacySchemaOk c0 = false := by
                by_contra hno
                push_neg at hno
                simp only [Bool.not_eq_false] at hno
                have hlegT : legacySchemaOk (.allR children) = true := by
                  simp only [legacySchemaOk, Bool.and_eq_true, List.all_eq_true,
                    List.mem_attach, true_implies, Subtype.forall, Bool.not_eq_true']
                  exact ⟨by simpa using hne, fun x hx => hno x hx⟩
                rw [hlegT] at hleg
                exact absurd hleg (by simp)
              obtain ⟨c0, hc0, hlegc0⟩ := hbadex
              have hF := convertChildren_some_forall children l2 hcc
              obtain ⟨cc0, hcc0mem, hRc0⟩ := forall2_mem_left hF c0 hc0
              have hbad := (ih c0 hc0 (hca c0 hc0)).2 hlegc0 cc0 hRc0
              by_contra hboth
              have hboth2 : (schemaOkV2 (.allOf l2) && semanticsOkV2 (.allOf l2)) = true := by
                cases hb : (schemaOkV2 (.allOf l2) && semanticsOkV2 (.allOf l2)) with
                | false => exact absurd hb hboth
                | true => rfl
              obtain ⟨hs, hm⟩ := (Bool.and_eq_true _ _).mp hboth2
              simp only [schemaOkV2, Bool.and_eq_true, List.all_eq_true, List.mem_attach,
                true_implies, Subtype.forall] at hs
              obtain ⟨-, hs2⟩ := hs
              simp only [semanticsOkV2, Bool.and_eq_true, List.all_eq_true, List.mem_attach,
                true_implies, Subtype.forall] at hm
              obtain ⟨-, hm2⟩ := hm
              have hgood : (schemaOkV2 cc0 && semanticsOkV2 cc0) = true := by
                rw [hs2 cc0 hcc0mem, hm2 cc0 hcc0mem]
                rfl
              rw [hgood] at hbad
              exact absurd hbad (by simp)



/-- Claim C6, counterexample. The claim's example says {all:[{course:A},
{course:B}]} over evidence {A,B} is satisfied under either evaluator; but both
schemas require the canonical dd:ddd:ddd code pattern, so both evaluators
return unsupported (hence not satisfied) on it. -/
theorem legacy_example_not_satisfied :
    evaluateDegreeRequirementRule (.allR [.course "A", .course "B"]) ["A", "B"]
      = unsupportedResult ∧
    evaluateRule (.allR [.course "A", .course "B"]) (["A", "B"] : List String).toFinset false
      = ⟨false, false, []⟩ := by
  have ha : isCanonicalCode "A" = false := by decide
  constructor
  · simp [evaluateDegreeRequirementRule, evaluateDegreeRequirementRuleOn,
      convertLegacyRuleToDegreeDslV2, convertChildren, schemaOkV2, ha,
      finalizeResult_false, unsupportedResult]
  · simp [evaluateRule, legacySchemaOk, ha]

/-- Claim C6, amended. For every legacy rule tree built only from course and
all nodes, the legacy evaluator with allow_complex=false and the
current-dialect evaluator agree on supported and on satisfied for every
evidence set; when the tree passes the legacy schema, conversion to the
current dialect succeeds; and the claim's example holds once its codes are
canonical: {all:[{course:14:540:100},{course:14:540:200}]} over those two
codes is satisfied under both evaluators. -/
theorem legacy_current_dialect_agreement (t : Rule) (ev : Finset String)
    (hca : isCourseAllTree t = true) :
    ((evaluateRule t ev false).supported = (evaluateDegreeRequirementRuleOn t ev).supported ∧
     (evaluateRule t ev false).satisfied = (evaluateDegreeRequirementRuleOn t ev).satisfied) ∧
    (legacySchemaOk t = true → (convertLegacyRuleToDegreeDslV2 t).isSome = true) ∧
    evaluateDegreeRequirementRule (.allR [.course "14:540:100", .course "14:540:200"])
        ["14:540:100", "14:540:200"]
      = ⟨true, true, [], [EXPLANATION_SATISFIED]⟩ ∧
    evaluateRule (.allR [.course "14:540:100", .course "14:540:200"])
        (["14:540:100", "14:540:200"] : List String).toFinset false
      = ⟨true, true, []⟩ := by
  refine ⟨?_, ?_, ?_, ?_⟩
  · by_cases hleg : legacySchemaOk t
    · obtain ⟨c, hconv, hcs, hcm, hev⟩ := (courseAll_agree t hca).1 hleg
      obtain ⟨h1, h2, h3, -⟩ := hev ev
      unfold evaluateRule evaluateDegreeRequirementRuleOn
      rw [if_pos hleg, hconv]
      dsimp only
      rw [if_pos (by rw [hcs, hcm]; rfl)]
      exact ⟨by rw [h1, h2], h3⟩
    · have hlegf : legacySchemaOk t = false := by simpa using hleg
      unfold evaluateRule evaluateDegreeRequirementRuleOn
      rw [if_neg hleg]
      cases hconv : convertLegacyRuleToDegreeDslV2 t with
      | none => exact ⟨rfl, rfl⟩
      | some c =>
          dsimp only
          rw [if_neg (by rw [(courseAll_agree t hca).2 hlegf c hconv]; simp)]
          exact ⟨rfl, rfl⟩
  · intro hleg
    obtain ⟨c, hconv, -⟩ := (courseAll_agree t hca).1 hleg
    simp [hconv]
  · have hc1 : isCanonicalCode "14:540:100" = true := by decide
    have hc2 : isCanonicalCode "14:540:200" = true := by decide
    simp [evaluateDegreeRequirementRule, evaluateDegreeRequirementRuleOn,
      convertLegacyRuleToDegreeDslV2, convertChildren, schemaOkV2, semanticsOkV2,
      hc1, hc2, evalV2, scanChildren, evalV2_courseSet_single, finalizeResult_sat,
      sortedCodes_singleton]
  · have hc1 : isCanonicalCode "14:540:100" = true := by decide
    have hc2 : isCanonicalCode "14:540:200" = true := by decide
    simp [evaluateRule, legacySchemaOk, hc1, hc2, evalNode, evalNodeAllLoop]

/-- Claim C6, witness: the agreement applied to the concrete course/all tree. -/
theorem legacy_current_dialect_agreement_witness :
    isCourseAllTree (.allR [.course "14:540:100", .course "14:540:200"]) = true ∧
    (evaluateRule (.allR [.course "14:540:100", .course "14:540:200"])
        (["14:540:100"] : List String).toFinset false).supported =
      (evaluateDegreeRequirementRuleOn (.allR [.course "14:540:100", .course "14:540:200"])
        (["14:540:100"] : List String).toFinset).supported := by
  have hca : isCourseAllTree (.allR [.course "14:540:100", .course "14:540:200"]) = true := by
    simp [isCourseAllTree]
  exact ⟨hca, (legacy_current_dialect_agreement
    (.allR [.course "14:540:100", .course "14:540:200"])
    (["14:540:100"] : List String).toFinset hca).1.1⟩

end GradPath
